import Mathlib

/-!
Verification of the core numeric engine of the AI Virality Index ETL
(`etl/processing/normalizer.py`, `smoother.py`, `index_calculator.py`,
`signal_detector.py`).

Embedding conventions:
* Python floats are modelled as rationals (`ℚ`).  Non-finite floats
  (NaN/inf) are not representable in this embedding, so the
  `np.isfinite` filters of the source are the identity here.
* Python `round(x, n)` is round-half-to-even at `n` decimal digits,
  modelled exactly by `rhe`/`pyRound` below.
* `np.quantile` with its default `linear` interpolation method is
  modelled by `npQuantile` (sort, virtual index `q*(n-1)`, linear
  interpolation between the two neighbouring order statistics).
* Python dicts are modelled as association lists (`List (String × ℚ)`);
  dict keys are unique, so the key-set membership tests of the source
  coincide with the value tests used here.
* Functions that raise (`ValueError`) are modelled with `Except`; the
  storage reads of the signal detector are modelled as explicit list
  arguments (rows ordered by date ascending, as the storage queries
  order them).
-/

set_option autoImplicit false

namespace AIVirality

/-! ## Definitions -/

/-- Round-half-to-even to the nearest integer (the rounding mode of
Python's builtin `round`). -/
def rhe (x : ℚ) : ℤ :=
  if x - (⌊x⌋ : ℚ) < 1/2 then ⌊x⌋
  else if 1/2 < x - (⌊x⌋ : ℚ) then ⌊x⌋ + 1
  else if ⌊x⌋ % 2 = 0 then ⌊x⌋ else ⌊x⌋ + 1

/-- Python's `round(x, p)` for a nonnegative number of decimal digits. -/
def pyRound (x : ℚ) (p : ℕ) : ℚ :=
  (rhe (x * 10 ^ p) : ℚ) / 10 ^ p

/-- Minimum of a list of rationals (Python `min`/`np.min`); `0` on the
empty list (the source only applies it to non-empty data). -/
def listMin : List ℚ → ℚ
  | [] => 0
  | x :: xs => xs.foldl min x

/-- Maximum of a list of rationals (Python `max`/`np.max`); `0` on the
empty list. -/
def listMax : List ℚ → ℚ
  | [] => 0
  | x :: xs => xs.foldl max x

/-- Insert into a sorted list (ascending). -/
def insertSorted (a : ℚ) : List ℚ → List ℚ
  | [] => [a]
  | y :: ys => if a ≤ y then a :: y :: ys else y :: insertSorted a ys

/-- Insertion sort, ascending — models the internal sort of `np.quantile`. -/
def sortList (l : List ℚ) : List ℚ := l.foldr insertSorted []

/-- Boolean ascending-order check, used to evaluate `sortList` on
concrete already-sorted data. -/
def sortedB : List ℚ → Bool
  | x :: y :: rest => decide (x ≤ y) && sortedB (y :: rest)
  | _ => true

/-- The C9 example history: the integers 10 through 59 ascending,
followed by the single outlier 500. -/
def outlierHistory : List ℚ :=
  [10, 11, 12, 13, 14, 15, 16, 17, 18, 19, 20, 21, 22, 23, 24, 25, 26,
   27, 28, 29, 30, 31, 32, 33, 34, 35, 36, 37, 38, 39, 40, 41, 42, 43,
   44, 45, 46, 47, 48, 49, 50, 51, 52, 53, 54, 55, 56, 57, 58, 59, 500]

/-- Linear interpolation of a sorted sample at virtual index `h`
(order statistics at `⌊h⌋` and `⌊h⌋ + 1`). -/
def quantileAt (s : List ℚ) (h : ℚ) : ℚ :=
  s.getD (⌊h⌋).toNat 0
    + (h - (⌊h⌋ : ℚ))
      * (s.getD ((⌊h⌋).toNat + 1) (s.getD (⌊h⌋).toNat 0) - s.getD (⌊h⌋).toNat 0)

/-- Embeds `np.quantile(arr, q)` with the default `linear` interpolation method:
sort ascending and interpolate at the virtual index `q * (n - 1)`. -/
def npQuantile (arr : List ℚ) (q : ℚ) : ℚ :=
  quantileAt (sortList arr) (q * (((sortList arr).length : ℚ) - 1))

/-! ### `etl/processing/normalizer.py` -/

/-- Embeds `_minmax_normalize(arr, current_value)`: min-max fallback used when
the window holds fewer than 7 values. -/
def minmax_normalize (arr : List ℚ) (current_value : ℚ) : ℚ :=
  let vmin := listMin arr
  let vmax := listMax arr
  if vmax = vmin then
    -- all values identical: 0 when the shared value is 0, else neutral 50
    if vmax = 0 then 0 else 50
  else
    let clipped := max vmin (min current_value vmax)
    let score := 100 * (clipped - vmin) / (vmax - vmin)
    pyRound (max 0 (min 100 score)) 2

/-- Embeds `quantile_normalize(values, current_value, window, q_low, q_high)`:
rolling quantile scaling with winsorization.  The `np.isfinite` filter of
the source is the identity here (ℚ has no NaN/inf). -/
def quantile_normalize (values : List ℚ) (current_value : Option ℚ := none)
    (window : ℕ := 90) (q_low : ℚ := 5/100) (q_high : ℚ := 95/100) : ℚ :=
  if values = [] then 50
  else
    let cv := current_value.getD (values.getLastD 0)
    let arr := values.drop (values.length - window)
    if arr = [] then 50
    else if arr.length < 7 then minmax_normalize arr cv
    else
      let q05 := npQuantile arr q_low
      let q95 := npQuantile arr q_high
      if q95 = q05 then
        if q95 = 0 then 0 else 50
      else
        let clipped := max q05 (min cv q95)
        let score := 100 * (clipped - q05) / (q95 - q05)
        pyRound (max 0 (min 100 score)) 2

/-- The values of the `nonzero_vals` dict of `cross_model_normalize`
(entries with value > 0). -/
def nonzeroVals (values_by_model : List (String × ℚ)) : List ℚ :=
  (values_by_model.filter (fun p => 0 < p.2)).map Prod.snd

/-- Embeds `cross_model_normalize(values_by_model)`: rank models against each
other's current raw value.  The source's `k in zero_models` test is a
key-membership test; with unique dict keys it is equivalent to the value
test `v ≤ 0` used here. -/
def cross_model_normalize (values_by_model : List (String × ℚ)) :
    List (String × ℚ) :=
  if values_by_model = [] then []
  else
    let nonzero_vals := values_by_model.filter (fun p => 0 < p.2)
    if nonzero_vals = [] then
      -- all zeros → all get 0
      values_by_model.map (fun p => (p.1, 0))
    else if nonzero_vals.length = 1 then
      -- only one model with data → it gets 50
      values_by_model.map (fun p => (p.1, if 0 < p.2 then 50 else 0))
    else
      let vmin := listMin (nonzeroVals values_by_model)
      let vmax := listMax (nonzeroVals values_by_model)
      if vmax = vmin then
        values_by_model.map (fun p => (p.1, if 0 < p.2 then 50 else 0))
      else
        values_by_model.map (fun p =>
          (p.1, if p.2 ≤ 0 then 0
                else pyRound (max 0 (min 100 (10 + 90 * (p.2 - vmin) / (vmax - vmin)))) 2))

/-! ### `etl/processing/smoother.py` -/

/-- The loop body of `ewma`: successively smooth and round each value,
carrying the previous (already rounded) result. -/
def ewmaLoop (alpha : ℚ) : ℚ → List ℚ → List ℚ
  | _, [] => []
  | prev, v :: rest =>
      let smoothed := alpha * v + (1 - alpha) * prev
      pyRound smoothed 4 :: ewmaLoop alpha (pyRound smoothed 4) rest

/-- Embeds `ewma(values, alpha)`: exponential weighted moving average.  The
empty-input early return precedes the alpha validation, exactly as in
the source. -/
def ewma (values : List ℚ) (alpha : ℚ) : Except String (List ℚ) :=
  if values = [] then .ok []
  else if ¬(0 < alpha ∧ alpha ≤ 1) then
    .error "alpha must be in (0, 1]"
  else
    match values with
    | [] => .ok []
    | v0 :: rest => .ok (v0 :: ewmaLoop alpha v0 rest)

/-- Embeds `ewma_single(previous_ewma, current_value, alpha)`: one incremental
EWMA step (the `np.isfinite` guard is the identity over ℚ). -/
def ewma_single (previous_ewma current_value : ℚ) (alpha : ℚ := 35/100) : ℚ :=
  pyRound (alpha * current_value + (1 - alpha) * previous_ewma) 4

/-! ### `etl/processing/index_calculator.py` -/

/-- Result record of `calculate_momentum`. -/
structure Momentum where
  delta7 : ℚ
  acceleration : ℚ
  deriving DecidableEq, Repr

/-- Embeds `calculate_momentum(scores)`: 7-day momentum and acceleration from a
series of daily scores (ascending); negative Python indices `scores[-k]`
are `scores[len - k]`. -/
def calculate_momentum (scores : List ℚ) : Momentum :=
  if scores.length < 8 then ⟨0, 0⟩
  else
    let delta7 := scores.getD (scores.length - 1) 0 - scores.getD (scores.length - 8) 0
    if scores.length < 15 then ⟨pyRound delta7 2, 0⟩
    else
      let delta7_prev := scores.getD (scores.length - 8) 0 - scores.getD (scores.length - 15) 0
      ⟨pyRound delta7 2, pyRound (delta7 - delta7_prev) 2⟩

/-! ### `etl/processing/signal_detector.py` (`detect_momentum_breakout`) -/

/-- One row of `daily_scores` as read by the breakout detector. -/
structure DailyRow where
  vi_trade : ℚ
  delta7_trade : ℚ
  accel_trade : ℚ
  deriving DecidableEq, Repr

/-- The signal record fields computed by `detect_momentum_breakout`
(constant fields such as `signal_type` are omitted). -/
structure BreakoutSignal where
  strength : ℚ
  divergence_score : ℚ
  deriving DecidableEq, Repr

/-- The latest row `daily_rows[-1]`. -/
def latestRow (daily_rows : List DailyRow) : DailyRow :=
  daily_rows.getD (daily_rows.length - 1) ⟨0, 0, 0⟩

/-- The adaptive `(vi_threshold, delta_threshold)` pair of
`detect_momentum_breakout`, keyed by the number of available days. -/
def breakoutThresholds (days_available : ℕ) : ℚ × ℚ :=
  if days_available ≥ 14 then (70, 15)
  else if days_available ≥ 7 then (65, 10)
  else (60, 5)

/-- The `d_grew_pct` computation of `detect_momentum_breakout`:
percent growth of the Dev-Adoption raw metric over the fetched window
(`recent_d`, ordered by date ascending), as a percentage of the earliest
value (`recent_d[0]`, a 0 baseline treated as 1).  With ≥ 8 points the
difference taken is `recent_d[-1] - recent_d[-8]`. -/
def d_grew_pct (recent_d : List ℚ) : ℚ :=
  if 2 ≤ recent_d.length then
    let base := if 0 < recent_d.getD 0 0 then recent_d.getD 0 0 else 1
    if 8 ≤ recent_d.length then
      ((recent_d.getD (recent_d.length - 1) 0 - recent_d.getD (recent_d.length - 8) 0) / base) * 100
    else
      ((recent_d.getD (recent_d.length - 1) 0 - recent_d.getD 0 0) / base) * 100
  else 0

/-- The growth computation as the specification words it: "first-vs-last
of the first 8 points if ≥ 8 points, else first-vs-last overall", as a
percentage of the earliest value (0 baseline treated as 1).  Written for
comparison with `d_grew_pct`, which is what the code computes. -/
def d_grew_pct_claimed (recent_d : List ℚ) : ℚ :=
  if 2 ≤ recent_d.length then
    let base := if 0 < recent_d.getD 0 0 then recent_d.getD 0 0 else 1
    if 8 ≤ recent_d.length then
      ((recent_d.getD 7 0 - recent_d.getD 0 0) / base) * 100
    else
      ((recent_d.getD (recent_d.length - 1) 0 - recent_d.getD 0 0) / base) * 100
  else 0

/-- Embeds `detect_momentum_breakout`: the stored rows it reads are passed as
arguments (`daily_rows`: up to 14 days of `daily_scores`, ascending;
`recent_d`: up to 14 days of Dev-Adoption `downloads_daily` raw values,
ascending). -/
def detect_momentum_breakout (daily_rows : List DailyRow) (recent_d : List ℚ) :
    Option BreakoutSignal :=
  if daily_rows.length < 3 then none
  else
    let latest := latestRow daily_rows
    let thresholds := breakoutThresholds daily_rows.length
    if latest.vi_trade ≤ thresholds.1 ∨ latest.delta7_trade ≤ thresholds.2 ∨
        latest.accel_trade ≤ 0 then none
    else if 10 ≤ d_grew_pct recent_d then
      none  -- adoption already confirmed the hype
    else
      some ⟨pyRound (min 100 (latest.vi_trade * (1/2) + latest.delta7_trade * 2)) 2,
            pyRound latest.delta7_trade 3⟩

/-- Example `daily_scores` rows (3 days; thresholds (60, 5); the latest
row passes all three threshold conditions). -/
def breakoutDailyRows : List DailyRow :=
  [⟨0, 0, 0⟩, ⟨0, 0, 0⟩, ⟨61, 6, 1⟩]

/-- Example Dev-Adoption series (9 days, ascending): a spike at index 7
makes the first-8-points growth 100% while the last-8-points growth
is 0%. -/
def breakoutRecentD : List ℚ :=
  [10, 10, 10, 10, 10, 10, 10, 20, 10]

/-! ## Theorems -/

/-! ### Rounding lemmas -/

theorem rhe_cases (x : ℚ) : rhe x = ⌊x⌋ ∨ rhe x = ⌊x⌋ + 1 := by
  unfold rhe
  split_ifs <;> simp

theorem floor_le_rhe (x : ℚ) : ⌊x⌋ ≤ rhe x := by
  rcases rhe_cases x with h | h <;> omega

theorem rhe_le_floor_add_one (x : ℚ) : rhe x ≤ ⌊x⌋ + 1 := by
  rcases rhe_cases x with h | h <;> omega

theorem rhe_intCast (n : ℤ) : rhe (n : ℚ) = n := by
  unfold rhe
  norm_num [Int.floor_intCast]

theorem le_rhe_of_int_le {n : ℤ} {x : ℚ} (h : (n : ℚ) ≤ x) : n ≤ rhe x :=
  le_trans (Int.le_floor.2 h) (floor_le_rhe x)

theorem rhe_le_of_le_int {n : ℤ} {x : ℚ} (h : x ≤ (n : ℚ)) : rhe x ≤ n := by
  rcases eq_or_lt_of_le h with heq | hlt
  · subst heq
    rw [rhe_intCast]
  · have hfl : ⌊x⌋ < n := Int.floor_lt.2 hlt
    have := rhe_le_floor_add_one x
    omega

theorem rhe_nonneg {x : ℚ} (h : 0 ≤ x) : 0 ≤ rhe x :=
  le_rhe_of_int_le (by exact_mod_cast h)

theorem pyRound_nonneg {x : ℚ} (p : ℕ) (h : 0 ≤ x) : 0 ≤ pyRound x p := by
  unfold pyRound
  have hnum : (0 : ℤ) ≤ rhe (x * 10 ^ p) :=
    rhe_nonneg (by positivity)
  have : (0 : ℚ) ≤ (rhe (x * 10 ^ p) : ℚ) := by exact_mod_cast hnum
  positivity

theorem pyRound_le_of_le_int {x : ℚ} {n : ℤ} (p : ℕ) (h : x ≤ (n : ℚ)) :
    pyRound x p ≤ (n : ℚ) := by
  unfold pyRound
  have hden : (0 : ℚ) < 10 ^ p := by positivity
  have hmul : x * 10 ^ p ≤ ((n * 10 ^ p : ℤ) : ℚ) := by
    push_cast
    exact mul_le_mul_of_nonneg_right h (le_of_lt hden)
  have hnum : rhe (x * 10 ^ p) ≤ n * 10 ^ p := rhe_le_of_le_int hmul
  rw [div_le_iff₀ hden]
  calc (rhe (x * 10 ^ p) : ℚ) ≤ ((n * 10 ^ p : ℤ) : ℚ) := by exact_mod_cast hnum
    _ = (n : ℚ) * 10 ^ p := by push_cast; ring

theorem le_pyRound_of_int_le {x : ℚ} {n : ℤ} (p : ℕ) (h : (n : ℚ) ≤ x) :
    (n : ℚ) ≤ pyRound x p := by
  unfold pyRound
  have hden : (0 : ℚ) < 10 ^ p := by positivity
  have hmul : ((n * 10 ^ p : ℤ) : ℚ) ≤ x * 10 ^ p := by
    push_cast
    exact mul_le_mul_of_nonneg_right h (le_of_lt hden)
  have hnum : n * 10 ^ p ≤ rhe (x * 10 ^ p) := le_rhe_of_int_le hmul
  rw [le_div_iff₀ hden]
  calc (n : ℚ) * 10 ^ p = ((n * 10 ^ p : ℤ) : ℚ) := by push_cast; ring
    _ ≤ (rhe (x * 10 ^ p) : ℚ) := by exact_mod_cast hnum

/-- Evaluate `rhe` at a concrete point below the half-way mark. -/
theorem rhe_eval_lt {x : ℚ} {f : ℤ} (h1 : (f : ℚ) ≤ x) (h2 : x < f + 1)
    (h3 : x - f < 1/2) : rhe x = f := by
  have hf : ⌊x⌋ = f := Int.floor_eq_iff.2 ⟨h1, by exact_mod_cast h2⟩
  unfold rhe
  rw [hf, if_pos h3]

/-- Evaluate `rhe` at a concrete point above the half-way mark. -/
theorem rhe_eval_gt {x : ℚ} {f : ℤ} (h1 : (f : ℚ) ≤ x) (h2 : x < f + 1)
    (h3 : 1/2 < x - f) : rhe x = f + 1 := by
  have hf : ⌊x⌋ = f := Int.floor_eq_iff.2 ⟨h1, by exact_mod_cast h2⟩
  unfold rhe
  rw [hf, if_neg (by linarith), if_pos h3]

/-- Evaluate `pyRound` when the scaled value is an integer. -/
theorem pyRound_of_intCast {x : ℚ} {n : ℤ} (p : ℕ) (h : x * 10 ^ p = (n : ℚ)) :
    pyRound x p = (n : ℚ) / 10 ^ p := by
  unfold pyRound
  rw [h, rhe_intCast]

/-! ### List min / max lemmas -/

theorem foldl_min_le_init (xs : List ℚ) : ∀ a : ℚ, xs.foldl min a ≤ a := by
  induction xs with
  | nil => intro a; exact le_refl a
  | cons x xs ih =>
      intro a
      exact le_trans (ih (min a x)) (min_le_left a x)

theorem foldl_min_le_mem {y : ℚ} {xs : List ℚ} (h : y ∈ xs) :
    ∀ a : ℚ, xs.foldl min a ≤ y := by
  induction xs with
  | nil => cases h
  | cons x xs ih =>
      intro a
      rcases List.mem_cons.1 h with rfl | hmem
      · exact le_trans (foldl_min_le_init xs (min a y)) (min_le_right a y)
      · exact ih hmem (min a x)

theorem init_le_foldl_max (xs : List ℚ) : ∀ a : ℚ, a ≤ xs.foldl max a := by
  induction xs with
  | nil => intro a; exact le_refl a
  | cons x xs ih =>
      intro a
      exact le_trans (le_max_left a x) (ih (max a x))

theorem mem_le_foldl_max {y : ℚ} {xs : List ℚ} (h : y ∈ xs) :
    ∀ a : ℚ, y ≤ xs.foldl max a := by
  induction xs with
  | nil => cases h
  | cons x xs ih =>
      intro a
      rcases List.mem_cons.1 h with rfl | hmem
      · exact le_trans (le_max_right a y) (init_le_foldl_max xs (max a y))
      · exact ih hmem (max a x)

theorem listMin_le_mem {y : ℚ} {l : List ℚ} (h : y ∈ l) : listMin l ≤ y := by
  cases l with
  | nil => cases h
  | cons x xs =>
      rcases List.mem_cons.1 h with rfl | hmem
      · exact foldl_min_le_init xs y
      · exact foldl_min_le_mem hmem x

theorem mem_le_listMax {y : ℚ} {l : List ℚ} (h : y ∈ l) : y ≤ listMax l := by
  cases l with
  | nil => cases h
  | cons x xs =>
      rcases List.mem_cons.1 h with rfl | hmem
      · exact init_le_foldl_max xs y
      · exact mem_le_foldl_max hmem x

theorem foldl_min_mem (xs : List ℚ) :
    ∀ a : ℚ, xs.foldl min a = a ∨ xs.foldl min a ∈ xs := by
  induction xs with
  | nil => intro a; exact Or.inl rfl
  | cons x xs ih =>
      intro a
      rcases ih (min a x) with h | h
      · rcases min_choice a x with hc | hc
        · rw [List.foldl_cons, h, hc]; exact Or.inl rfl
        · rw [List.foldl_cons, h, hc]; exact Or.inr (List.mem_cons_self x xs)
      · exact Or.inr (List.mem_cons_of_mem x h)

theorem foldl_max_mem (xs : List ℚ) :
    ∀ a : ℚ, xs.foldl max a = a ∨ xs.foldl max a ∈ xs := by
  induction xs with
  | nil => intro a; exact Or.inl rfl
  | cons x xs ih =>
      intro a
      rcases ih (max a x) with h | h
      · rcases max_choice a x with hc | hc
        · rw [List.foldl_cons, h, hc]; exact Or.inl rfl
        · rw [List.foldl_cons, h, hc]; exact Or.inr (List.mem_cons_self x xs)
      · exact Or.inr (List.mem_cons_of_mem x h)

theorem listMin_mem {l : List ℚ} (h : l ≠ []) : listMin l ∈ l := by
  cases l with
  | nil => exact absurd rfl h
  | cons x xs =>
      rcases foldl_min_mem xs x with heq | hmem
      · rw [listMin, heq]; exact List.mem_cons_self x xs
      · exact List.mem_cons_of_mem x hmem

theorem listMax_mem {l : List ℚ} (h : l ≠ []) : listMax l ∈ l := by
  cases l with
  | nil => exact absurd rfl h
  | cons x xs =>
      rcases foldl_max_mem xs x with heq | hmem
      · rw [listMax, heq]; exact List.mem_cons_self x xs
      · exact List.mem_cons_of_mem x hmem

/-! ### Sorting and quantile lemmas -/

theorem mem_insertSorted {x a : ℚ} :
    ∀ {l : List ℚ}, x ∈ insertSorted a l → x = a ∨ x ∈ l := by
  intro l
  induction l with
  | nil =>
      intro h
      rcases List.mem_singleton.1 h with rfl
      exact Or.inl rfl
  | cons y ys ih =>
      intro h
      rw [insertSorted] at h
      split at h
      · rcases List.mem_cons.1 h with rfl | h2
        · exact Or.inl rfl
        · exact Or.inr h2
      · rcases List.mem_cons.1 h with rfl | h2
        · exact Or.inr (List.mem_cons_self x ys)
        · rcases ih h2 with h3 | h3
          · exact Or.inl h3
          · exact Or.inr (List.mem_cons_of_mem y h3)

theorem mem_sortList {x : ℚ} : ∀ {l : List ℚ}, x ∈ sortList l → x ∈ l := by
  intro l
  induction l with
  | nil => intro h; cases h
  | cons y ys ih =>
      intro h
      rcases mem_insertSorted h with rfl | h2
      · exact List.mem_cons_self x ys
      · exact List.mem_cons_of_mem y (ih h2)

theorem length_insertSorted (a : ℚ) :
    ∀ l : List ℚ, (insertSorted a l).length = l.length + 1 := by
  intro l
  induction l with
  | nil => rfl
  | cons y ys ih =>
      rw [insertSorted]
      split
      · simp
      · simp [ih]

theorem length_sortList : ∀ l : List ℚ, (sortList l).length = l.length := by
  intro l
  induction l with
  | nil => rfl
  | cons y ys ih =>
      show (insertSorted y (sortList ys)).length = ys.length + 1
      rw [length_insertSorted, ih]

theorem insertSorted_eq_cons {x : ℚ} :
    ∀ {l : List ℚ}, (∀ y ∈ l.head?, x ≤ y) → insertSorted x l = x :: l := by
  intro l h
  cases l with
  | nil => rfl
  | cons y ys =>
      rw [insertSorted, if_pos (h y rfl)]

theorem sortList_of_chain : ∀ {l : List ℚ}, List.Chain' (· ≤ ·) l → sortList l = l := by
  intro l
  induction l with
  | nil => intro _; rfl
  | cons x xs ih =>
      intro h
      rcases List.chain'_cons'.1 h with ⟨hhead, htail⟩
      show insertSorted x (sortList xs) = x :: xs
      rw [ih htail]
      exact insertSorted_eq_cons hhead

theorem getD_of_all_eq {l : List ℚ} {c : ℚ} (hall : ∀ x ∈ l, x = c)
    {i : ℕ} (hi : i < l.length) (d : ℚ) : l.getD i d = c := by
  rw [List.getD_eq_getElem l d hi]
  exact hall _ (List.getElem_mem hi)

theorem npQuantile_const {arr : List ℚ} {c : ℚ} {q : ℚ} (h0 : 0 ≤ q) (h1 : q ≤ 1)
    (hne : arr ≠ []) (hall : ∀ x ∈ arr, x = c) : npQuantile arr q = c := by
  unfold npQuantile quantileAt
  have hsall : ∀ x ∈ sortList arr, x = c := fun x hx => hall x (mem_sortList hx)
  have hslen : (sortList arr).length = arr.length := length_sortList arr
  have hpos : 0 < arr.length := List.length_pos.2 hne
  set s := sortList arr with hs
  set i := (⌊q * ((s.length : ℚ) - 1)⌋).toNat with hidef
  have hn1 : (1 : ℕ) ≤ s.length := by omega
  have hcast : ((s.length : ℚ) - 1) = ((s.length - 1 : ℕ) : ℚ) := by
    push_cast [hn1]
    ring
  have hhle : q * ((s.length : ℚ) - 1) ≤ ((s.length - 1 : ℕ) : ℚ) := by
    rw [hcast]
    have : (0 : ℚ) ≤ ((s.length - 1 : ℕ) : ℚ) := by positivity
    nlinarith
  have hfl : ⌊q * ((s.length : ℚ) - 1)⌋ ≤ (s.length - 1 : ℕ) := by
    have := Int.floor_le_floor hhle
    rwa [Int.floor_natCast] at this
  have hilt : i < s.length := by omega
  have hlo : s.getD i 0 = c := getD_of_all_eq hsall hilt 0
  rw [hlo]
  by_cases hilt2 : i + 1 < s.length
  · have hhi : s.getD (i + 1) c = c := getD_of_all_eq hsall hilt2 c
    rw [hhi]; ring
  · have hhi : s.getD (i + 1) c = c := by
      apply List.getD_eq_default
      omega
    rw [hhi]; ring

/-! ### Normalizer theorems -/

theorem round2_clamp_mem (s : ℚ) :
    0 ≤ pyRound (max 0 (min 100 s)) 2 ∧ pyRound (max 0 (min 100 s)) 2 ≤ 100 := by
  constructor
  · exact pyRound_nonneg 2 (le_max_left 0 _)
  · have h : max 0 (min 100 s) ≤ ((100 : ℤ) : ℚ) := by
      push_cast
      exact max_le (by norm_num) (min_le_left _ _)
    have h2 := pyRound_le_of_le_int 2 h
    exact_mod_cast h2

theorem minmax_normalize_mem (arr : List ℚ) (cv : ℚ) :
    0 ≤ minmax_normalize arr cv ∧ minmax_normalize arr cv ≤ 100 := by
  simp only [minmax_normalize]
  split_ifs
  · norm_num
  · norm_num
  · exact round2_clamp_mem _

theorem minmax_normalize_const {arr : List ℚ} {c : ℚ} (hne : arr ≠ [])
    (hall : ∀ x ∈ arr, x = c) (cv : ℚ) :
    minmax_normalize arr cv = if c = 0 then 0 else 50 := by
  have hmin : listMin arr = c := hall _ (listMin_mem hne)
  have hmax : listMax arr = c := hall _ (listMax_mem hne)
  simp [minmax_normalize, hmin, hmax]

/-- C1: for every non-empty history and every target value (including
the default, `current_value = none`), the quantile normalizer returns a
score in the closed interval [0, 100]. -/
theorem quantile_normalize_range (values : List ℚ) (current_value : Option ℚ)
    (hne : values ≠ []) :
    0 ≤ quantile_normalize values current_value ∧
      quantile_normalize values current_value ≤ 100 := by
  simp only [quantile_normalize]
  split_ifs
  · norm_num
  · norm_num
  · exact minmax_normalize_mem _ _
  · norm_num
  · norm_num
  · exact round2_clamp_mem _

theorem quantile_normalize_range_witness :
    0 ≤ quantile_normalize [1, 2, 3] (some 10) ∧
      quantile_normalize [1, 2, 3] (some 10) ≤ 100 :=
  quantile_normalize_range [1, 2, 3] (some 10) (by simp)

/-- C2: the insufficient-data defaults of `quantile_normalize`: an empty
history returns 50.0; a history whose (finite) values inside the 90-day
window are all identical returns 0.0 when the shared value is 0.0 and
50.0 otherwise.  The statement does not restrict the window length, so
it covers both the quantile branch (filtered window length ≥ 7, where
`q95 == q05`) and the min-max fallback branch (length < 7, where
`vmax == vmin`). -/
theorem quantile_normalize_degenerate (values : List ℚ) (t c : ℚ) :
    quantile_normalize ([] : List ℚ) (some t) = 50 ∧
    (values ≠ [] →
      (∀ x ∈ values.drop (values.length - 90), x = c) →
      quantile_normalize values (some t) = if c = 0 then 0 else 50) := by
  constructor
  · rfl
  · intro hne hall
    have hlpos : 0 < values.length := List.length_pos.2 hne
    have harrlen : (values.drop (values.length - 90)).length
        = values.length - (values.length - 90) := List.length_drop _ _
    have harrpos : 0 < (values.drop (values.length - 90)).length := by omega
    have harrne : values.drop (values.length - 90) ≠ [] :=
      List.ne_nil_of_length_pos harrpos
    simp only [quantile_normalize]
    rw [if_neg hne, if_neg harrne]
    by_cases hlt : (values.drop (values.length - 90)).length < 7
    · rw [if_pos hlt]
      exact minmax_normalize_const harrne hall _
    · rw [if_neg hlt]
      have h05 : npQuantile (values.drop (values.length - 90)) (5/100) = c :=
        npQuantile_const (by norm_num) (by norm_num) harrne hall
      have h95 : npQuantile (values.drop (values.length - 90)) (95/100) = c :=
        npQuantile_const (by norm_num) (by norm_num) harrne hall
      rw [h05, h95, if_pos rfl]

theorem quantile_normalize_degenerate_witness :
    (quantile_normalize ([] : List ℚ) (some 7) = 50) ∧
    (quantile_normalize (List.replicate 10 (5 : ℚ)) (some 7) = 50) ∧
    (quantile_normalize [(0 : ℚ), 0, 0] (some 7) = 0) := by
  refine ⟨(quantile_normalize_degenerate [] 7 0).1, ?_, ?_⟩
  · -- quantile branch: 10 identical non-zero values
    have h := (quantile_normalize_degenerate (List.replicate 10 (5 : ℚ)) 7 5).2
      (by simp) (by intro x hx; exact List.eq_of_mem_replicate (List.mem_of_mem_drop hx))
    rw [if_neg (by norm_num)] at h
    exact h
  · -- min-max fallback branch: 3 identical zero values
    have h := (quantile_normalize_degenerate [(0 : ℚ), 0, 0] 7 0).2
      (by simp) (by intro x hx; simpa using List.mem_of_mem_drop hx)
    rw [if_pos rfl] at h
    exact h

theorem sortList_of_sortedB : ∀ (l : List ℚ), sortedB l = true → sortList l = l := by
  intro l
  induction l with
  | nil => intro _; rfl
  | cons x xs ih =>
      cases xs with
      | nil => intro _; rfl
      | cons y ys =>
          intro h
          rw [sortedB, Bool.and_eq_true] at h
          obtain ⟨h1, h2⟩ := h
          have hxy : x ≤ y := of_decide_eq_true h1
          show insertSorted x (sortList (y :: ys)) = x :: y :: ys
          rw [ih h2, insertSorted, if_pos hxy]

theorem npQuantile_outlierHistory_q95 :
    npQuantile outlierHistory (95/100) = 115/2 := by
  unfold npQuantile
  rw [sortList_of_sortedB outlierHistory (by decide)]
  rw [show (outlierHistory.length : ℚ) = 51 from by norm_num [outlierHistory]]
  unfold quantileAt
  rw [show (95/100 : ℚ) * (51 - 1) = 95/2 from by norm_num]
  rw [show ⌊(95/2 : ℚ)⌋ = 47 from Int.floor_eq_iff.2 (by norm_num)]
  rw [show ((47 : ℤ).toNat) = (47 : ℕ) from rfl]
  rw [show outlierHistory.getD 47 0 = 57 from rfl]
  rw [show outlierHistory.getD (47 + 1) 57 = 58 from rfl]
  push_cast
  norm_num

theorem npQuantile_outlierHistory_q05 :
    npQuantile outlierHistory (5/100) = 25/2 := by
  unfold npQuantile
  rw [sortList_of_sortedB outlierHistory (by decide)]
  rw [show (outlierHistory.length : ℚ) = 51 from by norm_num [outlierHistory]]
  unfold quantileAt
  rw [show (5/100 : ℚ) * (51 - 1) = 5/2 from by norm_num]
  rw [show ⌊(5/2 : ℚ)⌋ = 2 from Int.floor_eq_iff.2 (by norm_num)]
  rw [show ((2 : ℤ).toNat) = (2 : ℕ) from rfl]
  rw [show outlierHistory.getD 2 0 = 12 from rfl]
  rw [show outlierHistory.getD (2 + 1) 12 = 13 from rfl]
  push_cast
  norm_num

/-- C9: with history 10,11,…,59 followed by the single outlier 500,
normalizing the target 500 yields exactly 100.0 — the target is
winsorized to the 0.95 sample quantile (57.5) of the window, not scaled
against the true maximum. -/
theorem quantile_normalize_clips_outlier :
    quantile_normalize outlierHistory (some 500) = 100 := by
  have hne : outlierHistory ≠ [] := by simp [outlierHistory]
  have hdrop : outlierHistory.drop (outlierHistory.length - 90) = outlierHistory := rfl
  simp only [quantile_normalize]
  rw [if_neg hne, hdrop, if_neg hne]
  rw [if_neg (show ¬(outlierHistory.length < 7) from by norm_num [outlierHistory])]
  rw [npQuantile_outlierHistory_q95, npQuantile_outlierHistory_q05]
  rw [if_neg (show ¬((115/2 : ℚ) = 25/2) from by norm_num)]
  rw [show (some (500:ℚ)).getD (outlierHistory.getLastD 0) = 500 from rfl]
  rw [show min (500 : ℚ) (115/2) = 115/2 from min_eq_right (by norm_num)]
  rw [show max (25/2 : ℚ) (115/2) = 115/2 from max_eq_right (by norm_num)]
  rw [show (100 : ℚ) * (115/2 - 25/2) / (115/2 - 25/2) = 100 from by norm_num]
  rw [show min (100 : ℚ) 100 = 100 from min_self 100]
  rw [show max (0 : ℚ) 100 = 100 from max_eq_right (by norm_num)]
  rw [pyRound_of_intCast (n := 10000) 2 (by push_cast; norm_num)]
  push_cast
  norm_num

/-! ### Smoother theorems -/

theorem ewmaLoop_eq_scanl (alpha : ℚ) :
    ∀ (vs : List ℚ) (v0 : ℚ),
      v0 :: ewmaLoop alpha v0 vs
        = vs.scanl (fun prev v => ewma_single prev v alpha) v0 := by
  intro vs
  induction vs with
  | nil => intro v0; rfl
  | cons v rest ih =>
      intro v0
      show v0 :: pyRound (alpha * v + (1 - alpha) * v0) 4
            :: ewmaLoop alpha (pyRound (alpha * v + (1 - alpha) * v0) 4) rest
          = List.scanl (fun prev v => ewma_single prev v alpha) v0 (v :: rest)
      rw [List.scanl_cons]
      congr 1
      exact ih (pyRound (alpha * v + (1 - alpha) * v0) 4)

/-- C4: for a non-empty history and alpha in (0, 1], iterating
`ewma_single` over `values[1:]` starting from `values[0]` produces, step
by step, exactly the same sequence as `ewma(values, alpha)` run once
(the agreement is exact in this embedding because both sides round to 4
decimal places at every step). -/
theorem ewma_single_iterates (v0 : ℚ) (vs : List ℚ) (alpha : ℚ)
    (h0 : 0 < alpha) (h1 : alpha ≤ 1) :
    ewma (v0 :: vs) alpha
      = Except.ok (vs.scanl (fun prev v => ewma_single prev v alpha) v0) := by
  unfold ewma
  rw [if_neg (by simp), if_neg (not_not_intro ⟨h0, h1⟩)]
  show Except.ok (v0 :: ewmaLoop alpha v0 vs) = _
  rw [ewmaLoop_eq_scanl]

theorem ewma_single_iterates_witness :
    ewma [(10 : ℚ), 20] (35/100)
      = Except.ok ([(20 : ℚ)].scanl (fun prev v => ewma_single prev v (35/100)) 10) :=
  ewma_single_iterates 10 [20] (35/100) (by norm_num) (by norm_num)

/-- C6 counterexample: with an empty input list, `ewma` returns
`ok []` even for alpha = -1, which is outside (0, 1] — the empty-input
early return precedes the alpha validation, so the claim "rejects for
every input list" is false. -/
theorem ewma_invalid_alpha_empty_counterexample :
    ewma ([] : List ℚ) (-1) = Except.ok [] ∧
      ∀ e, ewma ([] : List ℚ) (-1) ≠ Except.error e := by
  refine ⟨rfl, ?_⟩
  intro e h
  rw [show ewma ([] : List ℚ) (-1) = Except.ok [] from rfl] at h
  exact Except.noConfusion h

/-- C6 (amended): for every NON-EMPTY input list and every alpha outside
(0, 1], `ewma` rejects the input with a `ValueError`. -/
theorem ewma_rejects_invalid_alpha (v : ℚ) (vs : List ℚ) (alpha : ℚ)
    (h : alpha ≤ 0 ∨ 1 < alpha) :
    ewma (v :: vs) alpha = Except.error "alpha must be in (0, 1]" := by
  have hcond : ¬(0 < alpha ∧ alpha ≤ 1) := by
    rcases h with h | h
    · rintro ⟨h1, -⟩; linarith
    · rintro ⟨-, h2⟩; linarith
  unfold ewma
  rw [if_neg (by simp), if_pos hcond]

theorem ewma_rejects_invalid_alpha_witness :
    ewma [(1 : ℚ)] 2 = Except.error "alpha must be in (0, 1]" :=
  ewma_rejects_invalid_alpha 1 [] 2 (Or.inr (by norm_num))

/-- C7 counterexample: `ewma(values, alpha=1.0)` is NOT the identity on
all inputs — every output element after the first is rounded to 4
decimal places, so `[0, 1/100000]` maps to `[0, 0]`. -/
theorem ewma_alpha_one_counterexample :
    ewma [(0 : ℚ), 1/100000] 1 ≠ Except.ok [(0 : ℚ), 1/100000] := by
  have hpr : pyRound ((1 : ℚ) * (1/100000) + (1 - 1) * 0) 4 = 0 := by
    unfold pyRound
    rw [show ((1 : ℚ) * (1/100000) + (1 - 1) * 0) * 10 ^ 4 = 1/10 from by norm_num]
    rw [show rhe (1/10 : ℚ) = 0 from
      rhe_eval_lt (by norm_num) (by push_cast; norm_num) (by push_cast; norm_num)]
    norm_num
  have heval : ewma [(0 : ℚ), 1/100000] 1 = Except.ok [0, 0] := by
    unfold ewma
    rw [if_neg (by simp), if_neg (by norm_num)]
    show Except.ok ((0 : ℚ) :: pyRound ((1 : ℚ) * (1/100000) + (1 - 1) * 0) 4
          :: ewmaLoop 1 (pyRound ((1 : ℚ) * (1/100000) + (1 - 1) * 0) 4) []) = _
    rw [hpr]
    rfl
  rw [heval]
  intro hcon
  have hlist := Except.ok.inj hcon
  rw [List.cons.injEq, List.cons.injEq] at hlist
  exact absurd hlist.2.1 (by norm_num)

theorem ewmaLoop_one_fixed :
    ∀ (vs : List ℚ) (prev : ℚ), (∀ v ∈ vs, pyRound v 4 = v) →
      ewmaLoop 1 prev vs = vs := by
  intro vs
  induction vs with
  | nil => intro prev _; rfl
  | cons v rest ih =>
      intro prev h
      show pyRound ((1 : ℚ) * v + (1 - 1) * prev) 4
            :: ewmaLoop 1 (pyRound ((1 : ℚ) * v + (1 - 1) * prev) 4) rest = v :: rest
      rw [show (1 : ℚ) * v + (1 - 1) * prev = v from by ring]
      rw [h v (List.mem_cons_self v rest)]
      rw [ih v (fun x hx => h x (List.mem_cons_of_mem v hx))]

/-- C7 (amended): `ewma(values, alpha=1.0)` equals `values` whenever
every element of `values[1:]` is exactly representable at 4 decimal
places (the first element is returned unrounded).  The rounding of each
subsequent output forces this restriction. -/
theorem ewma_alpha_one_identity (values : List ℚ)
    (h : ∀ v ∈ values.tail, pyRound v 4 = v) :
    ewma values 1 = Except.ok values := by
  cases values with
  | nil => rfl
  | cons v0 vs =>
      unfold ewma
      rw [if_neg (by simp), if_neg (by norm_num)]
      show Except.ok (v0 :: ewmaLoop 1 v0 vs) = _
      rw [ewmaLoop_one_fixed vs v0 (by simpa using h)]

theorem ewma_alpha_one_identity_witness :
    ewma [(5 : ℚ), 7] 1 = Except.ok [(5 : ℚ), 7] := by
  apply ewma_alpha_one_identity
  intro v hv
  simp only [List.tail_cons, List.mem_singleton] at hv
  subst hv
  rw [pyRound_of_intCast (n := 70000) 4 (by push_cast; norm_num)]
  push_cast
  norm_num

/-- C10: for every alpha — including values outside (0, 1] — `ewma`
returns the empty list on empty input without raising: the empty-input
early return precedes the alpha validation. -/
theorem ewma_empty_before_validation (alpha : ℚ) :
    ewma [] alpha = Except.ok [] := rfl

theorem ewma_empty_before_validation_witness :
    ewma [] (-5) = Except.ok [] :=
  ewma_empty_before_validation (-5)

/-! ### Index calculator theorems -/

/-- C3: `calculate_momentum` returns `{delta7: 0, acceleration: 0}` for
fewer than 8 scores; for 8–14 scores it returns
`delta7 = scores[-1] - scores[-8]` rounded to 2 decimals with zero
acceleration; for ≥ 15 scores it additionally returns
`acceleration = (scores[-1] - scores[-8]) - (scores[-8] - scores[-15])`
rounded to 2 decimals; and for exactly 8 values ascending by 1 it
returns `delta7 = 7.0`, `acceleration = 0.0`. -/
theorem calculate_momentum_spec (scores : List ℚ) :
    (scores.length < 8 → calculate_momentum scores = ⟨0, 0⟩) ∧
    (8 ≤ scores.length → scores.length < 15 →
      calculate_momentum scores =
        ⟨pyRound (scores.getD (scores.length - 1) 0 - scores.getD (scores.length - 8) 0) 2,
         0⟩) ∧
    (15 ≤ scores.length →
      calculate_momentum scores =
        ⟨pyRound (scores.getD (scores.length - 1) 0 - scores.getD (scores.length - 8) 0) 2,
         pyRound ((scores.getD (scores.length - 1) 0 - scores.getD (scores.length - 8) 0)
           - (scores.getD (scores.length - 8) 0 - scores.getD (scores.length - 15) 0)) 2⟩) ∧
    calculate_momentum [1, 2, 3, 4, 5, 6, 7, 8] = ⟨7, 0⟩ := by
  refine ⟨?_, ?_, ?_, ?_⟩
  · intro h
    unfold calculate_momentum
    rw [if_pos h]
  · intro h8 h15
    unfold calculate_momentum
    rw [if_neg (by omega), if_pos h15]
  · intro h15
    unfold calculate_momentum
    rw [if_neg (by omega), if_neg (by omega)]
  · unfold calculate_momentum
    rw [if_neg (by norm_num), if_pos (by norm_num)]
    rw [show ([1, 2, 3, 4, 5, 6, 7, 8] : List ℚ).getD
          (([1, 2, 3, 4, 5, 6, 7, 8] : List ℚ).length - 1) 0 = 8 from rfl]
    rw [show ([1, 2, 3, 4, 5, 6, 7, 8] : List ℚ).getD
          (([1, 2, 3, 4, 5, 6, 7, 8] : List ℚ).length - 8) 0 = 1 from rfl]
    rw [show (8 : ℚ) - 1 = 7 from by norm_num]
    rw [pyRound_of_intCast (n := 700) 2 (by push_cast; norm_num)]
    rw [show ((700 : ℤ) : ℚ) / 10 ^ 2 = 7 from by push_cast; norm_num]

theorem calculate_momentum_spec_witness :
    calculate_momentum [(1 : ℚ)] = ⟨0, 0⟩ ∧
      calculate_momentum [1, 2, 3, 4, 5, 6, 7, 8] = ⟨7, 0⟩ :=
  ⟨(calculate_momentum_spec [(1 : ℚ)]).1 (by norm_num),
   (calculate_momentum_spec []).2.2.2⟩

/-! ### Cross-model normalizer theorems -/

/-- C8: when at least two distinct positive values are present, every
model with a positive value receives `10 + 90*(v - vmin)/(vmax - vmin)`
rounded to 2 decimals (min/max over the positive values), a score in
[10, 100] — never in [0, 10) — and every model with value ≤ 0 receives
exactly 0.0. -/
theorem cross_model_normalize_spec (m : List (String × ℚ))
    (p q : String × ℚ) (hp : p ∈ m) (hq : q ∈ m)
    (hp2 : 0 < p.2) (hq2 : 0 < q.2) (hpq : p.2 ≠ q.2) :
    ∀ kv ∈ m,
      (0 < kv.2 →
        (kv.1, pyRound (10 + 90 * (kv.2 - listMin (nonzeroVals m))
            / (listMax (nonzeroVals m) - listMin (nonzeroVals m))) 2)
          ∈ cross_model_normalize m ∧
        10 ≤ pyRound (10 + 90 * (kv.2 - listMin (nonzeroVals m))
            / (listMax (nonzeroVals m) - listMin (nonzeroVals m))) 2 ∧
        pyRound (10 + 90 * (kv.2 - listMin (nonzeroVals m))
            / (listMax (nonzeroVals m) - listMin (nonzeroVals m))) 2 ≤ 100) ∧
      (kv.2 ≤ 0 → (kv.1, (0 : ℚ)) ∈ cross_model_normalize m) := by
  intro kv hkv
  have hpmem : p.2 ∈ nonzeroVals m :=
    List.mem_map.2 ⟨p, List.mem_filter.2 ⟨hp, by simpa using hp2⟩, rfl⟩
  have hqmem : q.2 ∈ nonzeroVals m :=
    List.mem_map.2 ⟨q, List.mem_filter.2 ⟨hq, by simpa using hq2⟩, rfl⟩
  have hminp : listMin (nonzeroVals m) ≤ p.2 := listMin_le_mem hpmem
  have hminq : listMin (nonzeroVals m) ≤ q.2 := listMin_le_mem hqmem
  have hmaxp : p.2 ≤ listMax (nonzeroVals m) := mem_le_listMax hpmem
  have hmaxq : q.2 ≤ listMax (nonzeroVals m) := mem_le_listMax hqmem
  have hlt : listMin (nonzeroVals m) < listMax (nonzeroVals m) := by
    by_contra hcon
    push_neg at hcon
    exact hpq (by linarith)
  have hm_ne : m ≠ [] := List.ne_nil_of_mem hp
  have hpfil : p ∈ m.filter (fun r => 0 < r.2) :=
    List.mem_filter.2 ⟨hp, by simpa using hp2⟩
  have hqfil : q ∈ m.filter (fun r => 0 < r.2) :=
    List.mem_filter.2 ⟨hq, by simpa using hq2⟩
  have hfne : m.filter (fun r => 0 < r.2) ≠ [] := List.ne_nil_of_mem hpfil
  have hflen : ¬(m.filter (fun r => 0 < r.2)).length = 1 := by
    intro hlen1
    obtain ⟨x, hx⟩ := List.length_eq_one.1 hlen1
    rw [hx] at hpfil hqfil
    have hpx : p = x := List.mem_singleton.1 hpfil
    have hqx : q = x := List.mem_singleton.1 hqfil
    exact hpq (by rw [hpx, hqx])
  have hvne : ¬(listMax (nonzeroVals m) = listMin (nonzeroVals m)) :=
    ne_of_gt hlt
  unfold cross_model_normalize
  rw [if_neg hm_ne, if_neg hfne, if_neg hflen, if_neg hvne]
  constructor
  · intro hpos
    have hkvmem : kv.2 ∈ nonzeroVals m :=
      List.mem_map.2 ⟨kv, List.mem_filter.2 ⟨hkv, by simpa using hpos⟩, rfl⟩
    have hminkv : listMin (nonzeroVals m) ≤ kv.2 := listMin_le_mem hkvmem
    have hmaxkv : kv.2 ≤ listMax (nonzeroVals m) := mem_le_listMax hkvmem
    have hden : (0 : ℚ) < listMax (nonzeroVals m) - listMin (nonzeroVals m) := by
      linarith
    have ht0 : (0 : ℚ) ≤ (kv.2 - listMin (nonzeroVals m))
        / (listMax (nonzeroVals m) - listMin (nonzeroVals m)) :=
      div_nonneg (by linarith) (le_of_lt hden)
    have ht1 : (kv.2 - listMin (nonzeroVals m))
        / (listMax (nonzeroVals m) - listMin (nonzeroVals m)) ≤ 1 :=
      (div_le_one hden).2 (by linarith)
    have hs10 : (10 : ℚ) ≤ 10 + 90 * (kv.2 - listMin (nonzeroVals m))
        / (listMax (nonzeroVals m) - listMin (nonzeroVals m)) := by
      rw [mul_div_assoc]
      nlinarith
    have hs100 : 10 + 90 * (kv.2 - listMin (nonzeroVals m))
        / (listMax (nonzeroVals m) - listMin (nonzeroVals m)) ≤ 100 := by
      rw [mul_div_assoc]
      nlinarith
    have hclamp : max 0 (min 100 (10 + 90 * (kv.2 - listMin (nonzeroVals m))
        / (listMax (nonzeroVals m) - listMin (nonzeroVals m))))
        = 10 + 90 * (kv.2 - listMin (nonzeroVals m))
            / (listMax (nonzeroVals m) - listMin (nonzeroVals m)) := by
      rw [min_eq_right hs100, max_eq_right (by linarith)]
    refine ⟨?_, ?_, ?_⟩
    · apply List.mem_map.2
      refine ⟨kv, hkv, ?_⟩
      show (kv.1, if kv.2 ≤ 0 then (0 : ℚ)
            else pyRound (max 0 (min 100 (10 + 90 * (kv.2 - listMin (nonzeroVals m))
              / (listMax (nonzeroVals m) - listMin (nonzeroVals m))))) 2) = _
      rw [if_neg (not_le.2 hpos), hclamp]
    · have h10 := le_pyRound_of_int_le (n := 10) 2
        (by push_cast; exact hs10)
      exact_mod_cast h10
    · have h100 := pyRound_le_of_le_int (n := 100) 2
        (by push_cast; exact hs100)
      exact_mod_cast h100
  · intro hneg
    apply List.mem_map.2
    refine ⟨kv, hkv, ?_⟩
    show (kv.1, if kv.2 ≤ 0 then (0 : ℚ)
          else pyRound (max 0 (min 100 (10 + 90 * (kv.2 - listMin (nonzeroVals m))
            / (listMax (nonzeroVals m) - listMin (nonzeroVals m))))) 2) = _
    rw [if_pos hneg]

theorem cross_model_normalize_spec_witness :
    (("a", pyRound (10 + 90 * ((1 : ℚ) - listMin (nonzeroVals [("a", 1), ("b", 2)]))
        / (listMax (nonzeroVals [("a", 1), ("b", 2)])
          - listMin (nonzeroVals [("a", 1), ("b", 2)]))) 2)
      ∈ cross_model_normalize [("a", 1), ("b", 2)]) ∧
    10 ≤ pyRound (10 + 90 * ((1 : ℚ) - listMin (nonzeroVals [("a", 1), ("b", 2)]))
        / (listMax (nonzeroVals [("a", 1), ("b", 2)])
          - listMin (nonzeroVals [("a", 1), ("b", 2)]))) 2 ∧
    pyRound (10 + 90 * ((1 : ℚ) - listMin (nonzeroVals [("a", 1), ("b", 2)]))
        / (listMax (nonzeroVals [("a", 1), ("b", 2)])
          - listMin (nonzeroVals [("a", 1), ("b", 2)]))) 2 ≤ 100 :=
  (cross_model_normalize_spec [("a", 1), ("b", 2)] ("a", 1) ("b", 2)
    (List.mem_cons_self _ _) (List.mem_cons_of_mem _ (List.mem_cons_self _ _))
    (by norm_num) (by norm_num) (by norm_num)
    ("a", 1) (List.mem_cons_self _ _)).1 (by norm_num)

/-! ### Signal detector theorems -/

/-- C5 counterexample: the claim reads the D-growth as "first-vs-last of
the first 8 points" when ≥ 8 points are available, and says the detector
returns `None` whenever that growth is ≥ 10%.  On `breakoutRecentD` that
claimed growth is 100% (≥ 10%), yet the detector — whose code computes
`recent_d[-1] - recent_d[-8]`, i.e. the change over the LAST 8 points —
emits a signal. -/
theorem detect_momentum_breakout_counterexample :
    10 ≤ d_grew_pct_claimed breakoutRecentD ∧
    detect_momentum_breakout breakoutDailyRows breakoutRecentD ≠ none := by
  constructor
  · simp only [d_grew_pct_claimed]
    rw [if_pos (by norm_num [breakoutRecentD])]
    rw [show breakoutRecentD.getD 0 0 = 10 from rfl]
    rw [if_pos (by norm_num : (0 : ℚ) < 10)]
    rw [if_pos (by norm_num [breakoutRecentD])]
    rw [show breakoutRecentD.getD 7 0 = 20 from rfl]
    norm_num
  · have hg : d_grew_pct breakoutRecentD = 0 := by
      simp only [d_grew_pct]
      rw [if_pos (by norm_num [breakoutRecentD])]
      rw [show breakoutRecentD.getD 0 0 = 10 from rfl]
      rw [if_pos (by norm_num : (0 : ℚ) < 10)]
      rw [if_pos (by norm_num [breakoutRecentD])]
      rw [show breakoutRecentD.getD (breakoutRecentD.length - 1) 0 = 10 from rfl]
      rw [show breakoutRecentD.getD (breakoutRecentD.length - 8) 0 = 10 from rfl]
      norm_num
    simp only [detect_momentum_breakout]
    rw [if_neg (by norm_num [breakoutDailyRows])]
    rw [show latestRow breakoutDailyRows = ⟨61, 6, 1⟩ from rfl]
    rw [show breakoutThresholds breakoutDailyRows.length = (60, 5) from rfl]
    rw [if_neg (by push_neg; refine ⟨by norm_num, by norm_num, by norm_num⟩)]
    rw [if_neg (by rw [hg]; norm_num)]
    simp

/-- C5 (amended): once the VI/delta7/acceleration threshold conditions
pass, the detector returns `None` iff the D-component percent growth is
≥ 10%, where with ≥ 8 points that growth is first-vs-last of the LAST 8
points (`recent_d[-1] - recent_d[-8]`), else first-vs-last of the whole
window, as a percentage of the earliest value (0 baseline treated
as 1). -/
theorem detect_momentum_breakout_gate (rows : List DailyRow) (recent_d : List ℚ)
    (h3 : 3 ≤ rows.length)
    (hvi : (breakoutThresholds rows.length).1 < (latestRow rows).vi_trade)
    (hd7 : (breakoutThresholds rows.length).2 < (latestRow rows).delta7_trade)
    (hac : 0 < (latestRow rows).accel_trade) :
    (detect_momentum_breakout rows recent_d = none ↔ 10 ≤ d_grew_pct recent_d) ∧
    (8 ≤ recent_d.length →
      d_grew_pct recent_d =
        ((recent_d.getD (recent_d.length - 1) 0 - recent_d.getD (recent_d.length - 8) 0)
          / (if 0 < recent_d.getD 0 0 then recent_d.getD 0 0 else 1)) * 100) := by
  constructor
  · simp only [detect_momentum_breakout]
    rw [if_neg (by omega)]
    rw [if_neg (by push_neg; exact ⟨hvi, hd7, hac⟩)]
    by_cases hg : 10 ≤ d_grew_pct recent_d
    · rw [if_pos hg]
      simp [hg]
    · rw [if_neg hg]
      simp [hg]
  · intro h8
    simp only [d_grew_pct]
    rw [if_pos (by omega), if_pos h8]

theorem detect_momentum_breakout_gate_witness :
    (detect_momentum_breakout breakoutDailyRows breakoutRecentD = none ↔
      10 ≤ d_grew_pct breakoutRecentD) ∧
    (8 ≤ breakoutRecentD.length →
      d_grew_pct breakoutRecentD =
        ((breakoutRecentD.getD (breakoutRecentD.length - 1) 0
            - breakoutRecentD.getD (breakoutRecentD.length - 8) 0)
          / (if 0 < breakoutRecentD.getD 0 0 then breakoutRecentD.getD 0 0 else 1)) * 100) :=
  detect_momentum_breakout_gate breakoutDailyRows breakoutRecentD
    (by norm_num [breakoutDailyRows])
    (by rw [show latestRow breakoutDailyRows = ⟨61, 6, 1⟩ from rfl,
          show breakoutThresholds breakoutDailyRows.length = (60, 5) from rfl]
        norm_num)
    (by rw [show latestRow breakoutDailyRows = ⟨61, 6, 1⟩ from rfl,
          show breakoutThresholds breakoutDailyRows.length = (60, 5) from rfl]
        norm_num)
    (by rw [show latestRow breakoutDailyRows = ⟨61, 6, 1⟩ from rfl]
        norm_num)

end AIVirality
